import Mathlib

/-!
Verification of the FuelEU compliance core: a shallow embedding of
`src/server/domain/compliance-service.ts` and
`src/server/domain/pooling-service.ts`, with theorems about the
compliance calculator, the greedy pool allocator and the pool validator.

Numbers of the source are modelled as rationals (`ℚ`); decimal literals
such as `89.3368` denote the exact decimal value.
-/

namespace FuelEU

/-! ## compliance-service.ts -/

/-- `TARGET_INTENSITY_2025 = 89.3368` (gCO2e/MJ — 2% below 91.16). -/
def TARGET_INTENSITY_2025 : ℚ := 89.3368

/-- `ENERGY_CONVERSION_FACTOR = 41000` (MJ per tonne of fuel). -/
def ENERGY_CONVERSION_FACTOR : ℚ := 41000

/-- `calculateComplianceBalance(ghgIntensity, fuelConsumption)`:
`energyInScope = fuelConsumption * ENERGY_CONVERSION_FACTOR`;
`cb = (TARGET_INTENSITY_2025 - ghgIntensity) * energyInScope`. -/
def calculateComplianceBalance (ghgIntensity fuelConsumption : ℚ) : ℚ :=
  let energyInScope := fuelConsumption * ENERGY_CONVERSION_FACTOR
  let cb := (TARGET_INTENSITY_2025 - ghgIntensity) * energyInScope
  cb

/-- `calculatePercentDiff(comparisonIntensity, baselineIntensity)`:
`((comparisonIntensity / baselineIntensity) - 1) * 100`. -/
def calculatePercentDiff (comparisonIntensity baselineIntensity : ℚ) : ℚ :=
  ((comparisonIntensity / baselineIntensity) - 1) * 100

/-- `isCompliant(ghgIntensity)`: `ghgIntensity <= TARGET_INTENSITY_2025`. -/
def isCompliant (ghgIntensity : ℚ) : Bool :=
  decide (ghgIntensity ≤ TARGET_INTENSITY_2025)

/-! ## pooling-service.ts — data model -/

/-- Input member of `allocatePoolBalances`: `{shipId, cbBefore}`. -/
structure PoolMember where
  shipId : String
  cbBefore : ℚ
deriving DecidableEq, Inhabited, Repr

/-- Output member: `{shipId, cbBefore, cbAfter}`. -/
structure AllocatedMember where
  shipId : String
  cbBefore : ℚ
  cbAfter : ℚ
deriving DecidableEq, Inhabited, Repr

/-- `PoolValidationResult`: `{valid, errors}`. -/
structure PoolValidationResult where
  valid : Bool
  errors : List String
deriving DecidableEq, Repr

/-! ## pooling-service.ts — allocatePoolBalances -/

/-- One step of the JS comparator sort `sort((a, b) => b.cbBefore - a.cbBefore)`:
stable insertion keeping the list in descending `cbBefore` order. -/
def insertDesc (m : PoolMember) : List PoolMember → List PoolMember
  | [] => [m]
  | x :: xs => if x.cbBefore < m.cbBefore then m :: x :: xs else x :: insertDesc m xs

/-- `[...members].sort((a, b) => b.cbBefore - a.cbBefore)`: stable sort,
descending by `cbBefore`. -/
def sortByCbDesc (ms : List PoolMember) : List PoolMember :=
  ms.foldr insertDesc []

/-- The `while (surplusIdx < deficitIdx)` loop of `allocatePoolBalances`,
as a step-indexed recursion: each loop iteration consumes one unit of fuel.
Since every iteration strictly decreases `di - si`, a fuel of `di - si`
always suffices (`allocLoop_fuel_add` below), so this is the loop itself.

Reads `results[surplusIdx].cbAfter` and `results[deficitIdx].cbAfter`;
when `surplus.cbAfter <= 0` advances the surplus cursor, when
`deficit.cbAfter >= 0` retreats the deficit cursor, otherwise transfers
`min(surplus.cbAfter, |deficit.cbAfter|)` and advances/retreats whichever
cursor reached its boundary. -/
def allocLoop : Nat → List AllocatedMember → Nat → Nat → List AllocatedMember
  | 0, res, _, _ => res
  | fuel + 1, res, si, di =>
    if si < di then
      let s := (res.getD si default).cbAfter
      let d := (res.getD di default).cbAfter
      if s ≤ 0 then
        allocLoop fuel res (si + 1) di
      else if 0 ≤ d then
        allocLoop fuel res si (di - 1)
      else
        let t := min s |d|
        let res' := (res.set si { res.getD si default with cbAfter := s - t }).set di
          { res.getD di default with cbAfter := d + t }
        allocLoop fuel res' (if s - t ≤ 0 then si + 1 else si)
          (if 0 ≤ d + t then di - 1 else di)
    else res

/-- `allocatePoolBalances(members)`: sort a copy descending by `cbBefore`,
initialize `cbAfter := cbBefore`, then run the two-cursor loop with
`surplusIdx = 0` and `deficitIdx = results.length - 1`. -/
def allocatePoolBalances (members : List PoolMember) : List AllocatedMember :=
  let sorted := sortByCbDesc members
  let results := sorted.map (fun m => ⟨m.shipId, m.cbBefore, m.cbBefore⟩)
  allocLoop (results.length - 1) results 0 (results.length - 1)

/-! ## pooling-service.ts — validatePool -/

/-- Rule 2 error string: `Ship ${shipId} would exit worse than entry`. -/
def rule2Msg (m : AllocatedMember) : String :=
  "Ship " ++ m.shipId ++ " would exit worse than entry"

/-- Rule 3 error string: `Ship ${shipId} would exit with negative CB`. -/
def rule3Msg (m : AllocatedMember) : String :=
  "Ship " ++ m.shipId ++ " would exit with negative CB"

/-- `validatePool(members)`: `totalSum = members.reduce((sum, m) => sum + m.cbBefore, 0)`;
rule 1 pushes one error when `totalSum < 0`; rule 2 pushes one error per member
with `cbBefore < 0 && cbAfter < cbBefore`; rule 3 pushes one error per member
with `cbBefore > 0 && cbAfter < 0`; `valid := errors.length === 0`. -/
def validatePool (members : List AllocatedMember) : PoolValidationResult :=
  let totalSum := members.foldl (fun sum m => sum + m.cbBefore) 0
  let errors0 : List String := if totalSum < 0 then ["Total pool sum must be >= 0"] else []
  let errors1 := members.foldl
    (fun acc m => if m.cbBefore < 0 ∧ m.cbAfter < m.cbBefore then acc ++ [rule2Msg m] else acc)
    errors0
  let errors2 := members.foldl
    (fun acc m => if m.cbBefore > 0 ∧ m.cbAfter < 0 then acc ++ [rule3Msg m] else acc)
    errors1
  { valid := errors2.length == 0, errors := errors2 }

/-! ## Helper lemmas -/

/-- The `(shipId, cbBefore)` part of an allocated member, which the
allocation loop never changes. -/
def memberKey (r : AllocatedMember) : String × ℚ := (r.shipId, r.cbBefore)

/-- The `(shipId, cbBefore)` pair of an input member. -/
def poolKey (m : PoolMember) : String × ℚ := (m.shipId, m.cbBefore)

/-- Range invariant maintained by the allocation loop: `cbAfter` stays
between `cbBefore` and `0` (a surplus member never drops below `0`,
a deficit member never rises above `0`, nobody moves away from `0`). -/
def InRange (r : AllocatedMember) : Prop :=
  min r.cbBefore 0 ≤ r.cbAfter ∧ r.cbAfter ≤ max r.cbBefore 0

theorem insertDesc_perm (m : PoolMember) (l : List PoolMember) :
    (insertDesc m l).Perm (m :: l) := by
  induction l with
  | nil => exact List.Perm.refl _
  | cons x xs ih =>
    simp only [insertDesc]
    split
    · exact List.Perm.refl _
    · exact (ih.cons x).trans (List.Perm.swap m x xs)

theorem sortByCbDesc_perm (ms : List PoolMember) : (sortByCbDesc ms).Perm ms := by
  induction ms with
  | nil => exact List.Perm.refl _
  | cons m ms ih =>
    simp only [sortByCbDesc, List.foldr] at ih ⊢
    exact (insertDesc_perm m _).trans (ih.cons m)

theorem map_set_congr (f : AllocatedMember → α) (l : List AllocatedMember)
    (i : Nat) (x : AllocatedMember) (h : f x = f (l.getD i default)) :
    (l.set i x).map f = l.map f := by
  induction l generalizing i with
  | nil => rfl
  | cons a l ih =>
    cases i with
    | zero => simpa [List.set, List.getD] using h
    | succ i =>
      simp only [List.set, List.map, List.cons.injEq, true_and]
      exact ih i (by simpa [List.getD] using h)

theorem sum_cbAfter_set (l : List AllocatedMember) (i : Nat) (x : AllocatedMember)
    (hi : i < l.length) :
    ((l.set i x).map AllocatedMember.cbAfter).sum =
      (l.map AllocatedMember.cbAfter).sum - (l.getD i default).cbAfter + x.cbAfter := by
  induction l generalizing i with
  | nil => simp at hi
  | cons a l ih =>
    cases i with
    | zero => simp [List.getD]; ring
    | succ i =>
      have := ih i (by simpa using hi)
      simp only [List.set, List.map, List.sum_cons, List.getD_cons_succ, this]
      ring

theorem getD_set_ne (l : List AllocatedMember) (i j : Nat) (x d : AllocatedMember)
    (h : i ≠ j) : (l.set i x).getD j d = l.getD j d := by
  induction l generalizing i j with
  | nil => rfl
  | cons a l ih =>
    cases i with
    | zero => cases j with
      | zero => exact absurd rfl h
      | succ j => rfl
    | succ i => cases j with
      | zero => rfl
      | succ j => simpa [List.getD] using ih i j (by omega)

theorem getD_mem_of_lt (l : List AllocatedMember) (i : Nat) (h : i < l.length) :
    l.getD i default ∈ l := by
  rw [List.getD_eq_getElem l default h]
  exact List.getElem_mem h

theorem getD_cbAfter_pos_lt (l : List AllocatedMember) (i : Nat)
    (h : 0 < (l.getD i default).cbAfter) : i < l.length := by
  by_contra hge
  rw [List.getD_eq_default l default (by omega)] at h
  exact absurd h (by norm_num [show (default : AllocatedMember).cbAfter = 0 from rfl])

theorem getD_cbAfter_neg_lt (l : List AllocatedMember) (i : Nat)
    (h : (l.getD i default).cbAfter < 0) : i < l.length := by
  by_contra hge
  rw [List.getD_eq_default l default (by omega)] at h
  exact absurd h (by norm_num [show (default : AllocatedMember).cbAfter = 0 from rfl])

/-- Defining equation of one iteration of the allocation loop. -/
theorem allocLoop_succ (fuel : Nat) (res : List AllocatedMember) (si di : Nat) :
    allocLoop (fuel + 1) res si di =
      if si < di then
        let s := (res.getD si default).cbAfter
        let d := (res.getD di default).cbAfter
        if s ≤ 0 then allocLoop fuel res (si + 1) di
        else if 0 ≤ d then allocLoop fuel res si (di - 1)
        else
          let t := min s |d|
          allocLoop fuel ((res.set si { res.getD si default with cbAfter := s - t }).set di
            { res.getD di default with cbAfter := d + t })
            (if s - t ≤ 0 then si + 1 else si) (if 0 ≤ d + t then di - 1 else di)
      else res := rfl

/-- The loop never touches `shipId` or `cbBefore`. -/
theorem allocLoop_map_key (fuel : Nat) (res : List AllocatedMember) (si di : Nat) :
    (allocLoop fuel res si di).map memberKey = res.map memberKey := by
  induction fuel generalizing res si di with
  | zero => rfl
  | succ fuel ih =>
    rw [allocLoop_succ]
    by_cases hlt : si < di
    · simp only [if_pos hlt]
      by_cases hs : (res.getD si default).cbAfter ≤ 0
      · simp only [if_pos hs]
        exact ih res (si + 1) di
      · simp only [if_neg hs]
        by_cases hd : 0 ≤ (res.getD di default).cbAfter
        · simp only [if_pos hd]
          exact ih res si (di - 1)
        · simp only [if_neg hd]
          rw [ih]
          rw [map_set_congr _ _ _ _ (by rw [getD_set_ne _ si di _ _ (by omega)]; rfl)]
          exact map_set_congr _ _ _ _ rfl
    · simp only [if_neg hlt]

/-- The loop preserves the length of the member list. -/
theorem allocLoop_length (fuel : Nat) (res : List AllocatedMember) (si di : Nat) :
    (allocLoop fuel res si di).length = res.length := by
  induction fuel generalizing res si di with
  | zero => rfl
  | succ fuel ih =>
    rw [allocLoop_succ]
    by_cases hlt : si < di
    · simp only [if_pos hlt]
      by_cases hs : (res.getD si default).cbAfter ≤ 0
      · simp only [if_pos hs]
        exact ih res (si + 1) di
      · simp only [if_neg hs]
        by_cases hd : 0 ≤ (res.getD di default).cbAfter
        · simp only [if_pos hd]
          exact ih res si (di - 1)
        · simp only [if_neg hd]
          rw [ih, List.length_set, List.length_set]
    · simp only [if_neg hlt]

/-- The loop conserves the total of the `cbAfter` values: each transfer
subtracts and adds the same amount at two distinct indices. -/
theorem allocLoop_sum (fuel : Nat) (res : List AllocatedMember) (si di : Nat) :
    ((allocLoop fuel res si di).map AllocatedMember.cbAfter).sum =
      (res.map AllocatedMember.cbAfter).sum := by
  induction fuel generalizing res si di with
  | zero => rfl
  | succ fuel ih =>
    rw [allocLoop_succ]
    by_cases hlt : si < di
    · simp only [if_pos hlt]
      by_cases hs : (res.getD si default).cbAfter ≤ 0
      · simp only [if_pos hs]
        exact ih res (si + 1) di
      · simp only [if_neg hs]
        by_cases hd : 0 ≤ (res.getD di default).cbAfter
        · simp only [if_pos hd]
          exact ih res si (di - 1)
        · simp only [if_neg hd]
          have hsi : si < res.length := getD_cbAfter_pos_lt res si (by linarith [not_le.mp hs])
          have hdi : di < res.length := getD_cbAfter_neg_lt res di (not_le.mp hd)
          rw [ih, sum_cbAfter_set _ di _ (by rwa [List.length_set]),
            sum_cbAfter_set _ si _ hsi, getD_set_ne _ si di _ _ (by omega)]
          simp only []
          ring
    · simp only [if_neg hlt]

/-- The loop preserves the range invariant: every member's `cbAfter`
stays between `min cbBefore 0` and `max cbBefore 0`. -/
theorem allocLoop_invariant (fuel : Nat) (res : List AllocatedMember) (si di : Nat)
    (h : ∀ r ∈ res, InRange r) : ∀ r ∈ allocLoop fuel res si di, InRange r := by
  induction fuel generalizing res si di with
  | zero => exact h
  | succ fuel ih =>
    rw [allocLoop_succ]
    by_cases hlt : si < di
    · simp only [if_pos hlt]
      by_cases hs : (res.getD si default).cbAfter ≤ 0
      · simp only [if_pos hs]
        exact ih res (si + 1) di h
      · simp only [if_neg hs]
        by_cases hd : 0 ≤ (res.getD di default).cbAfter
        · simp only [if_pos hd]
          exact ih res si (di - 1) h
        · simp only [if_neg hd]
          have hspos : 0 < (res.getD si default).cbAfter := not_le.mp hs
          have hdneg : (res.getD di default).cbAfter < 0 := not_le.mp hd
          have hsi : si < res.length := getD_cbAfter_pos_lt res si hspos
          have hdi : di < res.length := getD_cbAfter_neg_lt res di hdneg
          have hsIn : InRange (res.getD si default) := h _ (getD_mem_of_lt res si hsi)
          have hdIn : InRange (res.getD di default) := h _ (getD_mem_of_lt res di hdi)
          have htl : min (res.getD si default).cbAfter |(res.getD di default).cbAfter| ≤
              (res.getD si default).cbAfter := min_le_left _ _
          have htr : min (res.getD si default).cbAfter |(res.getD di default).cbAfter| ≤
              |(res.getD di default).cbAfter| := min_le_right _ _
          have htpos : 0 ≤ min (res.getD si default).cbAfter
              |(res.getD di default).cbAfter| :=
            le_min (le_of_lt hspos) (abs_nonneg _)
          have habs : |(res.getD di default).cbAfter| = -(res.getD di default).cbAfter :=
            abs_of_neg hdneg
          refine ih _ _ _ (fun r hr => ?_)
          rcases List.mem_or_eq_of_mem_set hr with hr' | hr'
          · rcases List.mem_or_eq_of_mem_set hr' with hr'' | hr''
            · exact h r hr''
            · subst hr''
              simp only [InRange]
              constructor
              · linarith [min_le_right (res.getD si default).cbBefore (0 : ℚ), htl]
              · linarith [htpos, hsIn.2]
          · subst hr'
            simp only [InRange]
            constructor
            · linarith [hdIn.1, htpos]
            · linarith [htr, habs, le_max_right (res.getD di default).cbBefore (0 : ℚ)]
    · simp only [if_neg hlt]
      exact h

/-- With any fuel, the loop returns immediately once the cursors have
met or crossed. -/
theorem allocLoop_exit (fuel : Nat) (res : List AllocatedMember) (si di : Nat)
    (h : ¬ si < di) : allocLoop fuel res si di = res := by
  cases fuel with
  | zero => rfl
  | succ fuel => rw [allocLoop_succ, if_neg h]

/-- Every iteration strictly shrinks `di - si`, so fuel `di - si` is enough:
one more unit of fuel changes nothing. -/
theorem allocLoop_fuel_succ (fuel : Nat) (res : List AllocatedMember) (si di : Nat)
    (h : di - si ≤ fuel) : allocLoop (fuel + 1) res si di = allocLoop fuel res si di := by
  induction fuel generalizing res si di with
  | zero =>
    rw [allocLoop_succ, if_neg (by omega)]
    rfl
  | succ fuel ih =>
    rw [allocLoop_succ (fuel + 1) res si di, allocLoop_succ fuel res si di]
    by_cases hlt : si < di
    · simp only [if_pos hlt]
      by_cases hs : (res.getD si default).cbAfter ≤ 0
      · simp only [if_pos hs]
        exact ih res (si + 1) di (by omega)
      · simp only [if_neg hs]
        by_cases hd : 0 ≤ (res.getD di default).cbAfter
        · simp only [if_pos hd]
          exact ih res si (di - 1) (by omega)
        · simp only [if_neg hd]
          by_cases hst : (res.getD si default).cbAfter -
              min (res.getD si default).cbAfter |(res.getD di default).cbAfter| ≤ 0
          · simp only [if_pos hst]
            by_cases hdt : 0 ≤ (res.getD di default).cbAfter +
                min (res.getD si default).cbAfter |(res.getD di default).cbAfter|
            · simp only [if_pos hdt]
              exact ih _ (si + 1) (di - 1) (by omega)
            · simp only [if_neg hdt]
              exact ih _ (si + 1) di (by omega)
          · simp only [if_neg hst]
            have hdt : 0 ≤ (res.getD di default).cbAfter +
                min (res.getD si default).cbAfter |(res.getD di default).cbAfter| := by
              rcases min_choice (res.getD si default).cbAfter
                |(res.getD di default).cbAfter| with hmin | hmin
              · rw [hmin] at hst
                exact absurd (by linarith) hst
              · rw [hmin, abs_of_neg (not_le.mp hd)]
                linarith
            simp only [if_pos hdt]
            exact ih _ si (di - 1) (by omega)
    · simp only [if_neg hlt]

/-- Fuel beyond `di - si` is irrelevant: the loop has already terminated. -/
theorem allocLoop_fuel_add (extra fuel : Nat) (res : List AllocatedMember) (si di : Nat)
    (h : di - si ≤ fuel) :
    allocLoop (fuel + extra) res si di = allocLoop fuel res si di := by
  induction extra with
  | zero => rfl
  | succ extra ih =>
    have : fuel + (extra + 1) = (fuel + extra) + 1 := by omega
    rw [this, allocLoop_fuel_succ (fuel + extra) res si di (by omega), ih]

/-- The allocator returns the members of its input (sorted), with `shipId`
and `cbBefore` untouched. -/
theorem allocate_map_key (ms : List PoolMember) :
    ((allocatePoolBalances ms).map memberKey).Perm (ms.map poolKey) := by
  simp only [allocatePoolBalances]
  rw [allocLoop_map_key, List.map_map]
  have hcomp : (memberKey ∘ fun m : PoolMember =>
      (⟨m.shipId, m.cbBefore, m.cbBefore⟩ : AllocatedMember)) = poolKey := rfl
  rw [hcomp]
  exact (sortByCbDesc_perm ms).map poolKey

/-- The allocator preserves the sum of the `cbBefore` values. -/
theorem allocate_sum_before (ms : List PoolMember) :
    ((allocatePoolBalances ms).map AllocatedMember.cbBefore).sum =
      (ms.map PoolMember.cbBefore).sum := by
  have h := (allocate_map_key ms).map Prod.snd
  rw [List.map_map, List.map_map] at h
  exact h.sum_eq

/-- The sum of the `cbAfter` values of the allocator's output equals the sum
of the `cbBefore` values of its input. -/
theorem allocate_sum_after (ms : List PoolMember) :
    ((allocatePoolBalances ms).map AllocatedMember.cbAfter).sum =
      (ms.map PoolMember.cbBefore).sum := by
  simp only [allocatePoolBalances]
  rw [allocLoop_sum, List.map_map]
  have hcomp : (AllocatedMember.cbAfter ∘ fun m : PoolMember =>
      (⟨m.shipId, m.cbBefore, m.cbBefore⟩ : AllocatedMember)) = PoolMember.cbBefore := rfl
  rw [hcomp]
  exact ((sortByCbDesc_perm ms).map PoolMember.cbBefore).sum_eq

/-- Every member of the allocator's output satisfies the range invariant. -/
theorem allocate_invariant (ms : List PoolMember) :
    ∀ r ∈ allocatePoolBalances ms, InRange r := by
  simp only [allocatePoolBalances]
  refine allocLoop_invariant _ _ _ _ (fun r hr => ?_)
  rcases List.mem_map.mp hr with ⟨m, _, rfl⟩
  exact ⟨min_le_left _ _, le_max_left _ _⟩

theorem foldl_add_cbBefore (l : List AllocatedMember) (a : ℚ) :
    l.foldl (fun sum m => sum + m.cbBefore) a = a + (l.map AllocatedMember.cbBefore).sum := by
  induction l generalizing a with
  | nil => simp
  | cons x l ih => simp [ih, add_assoc]

theorem foldl_rule2 (l : List AllocatedMember) (acc : List String) :
    l.foldl (fun acc m =>
        if m.cbBefore < 0 ∧ m.cbAfter < m.cbBefore then acc ++ [rule2Msg m] else acc) acc =
      acc ++ (l.filter fun m => decide (m.cbBefore < 0 ∧ m.cbAfter < m.cbBefore)).map rule2Msg := by
  induction l generalizing acc with
  | nil => simp
  | cons a l ih =>
    rw [List.foldl_cons, ih, List.filter_cons]
    by_cases hp : a.cbBefore < 0 ∧ a.cbAfter < a.cbBefore
    · simp [hp]
    · simp [hp]

theorem foldl_rule3 (l : List AllocatedMember) (acc : List String) :
    l.foldl (fun acc m =>
        if m.cbBefore > 0 ∧ m.cbAfter < 0 then acc ++ [rule3Msg m] else acc) acc =
      acc ++ (l.filter fun m => decide (m.cbBefore > 0 ∧ m.cbAfter < 0)).map rule3Msg := by
  induction l generalizing acc with
  | nil => simp
  | cons a l ih =>
    rw [List.foldl_cons, ih, List.filter_cons]
    by_cases hp : a.cbBefore > 0 ∧ a.cbAfter < 0
    · simp [hp]
    · simp [hp]

/-- The error list of `validatePool`: the rule 1 error when the total
`cbBefore` sum is negative, then one rule 2 error per violating member,
then one rule 3 error per violating member, in order. -/
theorem validatePool_errors (ms : List AllocatedMember) :
    (validatePool ms).errors =
      (if (ms.map AllocatedMember.cbBefore).sum < 0 then ["Total pool sum must be >= 0"] else [])
      ++ (ms.filter fun m => decide (m.cbBefore < 0 ∧ m.cbAfter < m.cbBefore)).map rule2Msg
      ++ (ms.filter fun m => decide (m.cbBefore > 0 ∧ m.cbAfter < 0)).map rule3Msg := by
  simp only [validatePool, foldl_add_cbBefore, zero_add, foldl_rule2, foldl_rule3,
    List.append_assoc]

/-- `valid` holds exactly when the error list is empty. -/
theorem validatePool_valid_iff (ms : List AllocatedMember) :
    (validatePool ms).valid = true ↔ (validatePool ms).errors = [] := by
  simp only [validatePool, beq_iff_eq, List.length_eq_zero]

/-! ## Claims -/

/-- C1: for every input list of members whose `cbBefore` values sum to at
least 0, running `validatePool` on the output of `allocatePoolBalances`
yields `valid = true` — the greedy allocation satisfies validation
invariants 2 and 3 whenever invariant 1 holds. -/
theorem pool_allocation_validates (ms : List PoolMember)
    (h : 0 ≤ (ms.map PoolMember.cbBefore).sum) :
    (validatePool (allocatePoolBalances ms)).valid = true := by
  rw [validatePool_valid_iff, validatePool_errors, allocate_sum_before,
    if_neg (not_lt.mpr h)]
  have hinv := allocate_invariant ms
  have h2 : (allocatePoolBalances ms).filter
      (fun m => decide (m.cbBefore < 0 ∧ m.cbAfter < m.cbBefore)) = [] := by
    rw [List.filter_eq_nil_iff]
    intro r hr
    simp only [decide_eq_true_eq, not_and, not_lt]
    intro hb
    have hmin := (hinv r hr).1
    rwa [min_eq_left (le_of_lt hb)] at hmin
  have h3 : (allocatePoolBalances ms).filter
      (fun m => decide (m.cbBefore > 0 ∧ m.cbAfter < 0)) = [] := by
    rw [List.filter_eq_nil_iff]
    intro r hr
    simp only [decide_eq_true_eq, not_and, not_lt]
    intro hb
    have hmin := (hinv r hr).1
    rwa [min_eq_right (le_of_lt hb)] at hmin
  rw [h2, h3]
  simp

theorem pool_allocation_validates_witness :
    (0 : ℚ) ≤ (([⟨"A", 50⟩, ⟨"B", -50⟩] : List PoolMember).map PoolMember.cbBefore).sum ∧
    (validatePool (allocatePoolBalances [⟨"A", 50⟩, ⟨"B", -50⟩])).valid = true :=
  ⟨by norm_num, pool_allocation_validates _ (by norm_num)⟩

/-- C2: for every input list of members, the sum of `cbAfter` over the
output of `allocatePoolBalances` equals the sum of `cbBefore` over the
input — redistribution conserves total balance. -/
theorem allocate_conserves_balance (ms : List PoolMember) :
    ((allocatePoolBalances ms).map AllocatedMember.cbAfter).sum =
      (ms.map PoolMember.cbBefore).sum := by
  rw [allocate_sum_after]

/-- C3: when the total `cbBefore` sum is nonnegative and the surplus fully
covers the deficits, every output member that entered in surplus ends with
`cbAfter ≥ 0` and every member that entered in deficit ends with
`cbAfter ≤ 0` (in fact this holds for every input). -/
theorem allocate_sign_invariant (ms : List PoolMember)
    (_hsum : 0 ≤ (ms.map PoolMember.cbBefore).sum)
    (_hcover : -(((ms.filter fun m => decide (m.cbBefore < 0)).map PoolMember.cbBefore).sum) ≤
      ((ms.filter fun m => decide (0 < m.cbBefore)).map PoolMember.cbBefore).sum) :
    ∀ r ∈ allocatePoolBalances ms,
      (0 < r.cbBefore → 0 ≤ r.cbAfter) ∧ (r.cbBefore < 0 → r.cbAfter ≤ 0) := by
  intro r hr
  have hi := allocate_invariant ms r hr
  constructor
  · intro hb
    have hmin := hi.1
    rwa [min_eq_right (le_of_lt hb)] at hmin
  · intro hb
    have hmax := hi.2
    rwa [max_eq_right (le_of_lt hb)] at hmax

theorem allocate_sign_invariant_witness :
    (0 : ℚ) ≤ (([⟨"P", 30⟩, ⟨"Q", -10⟩] : List PoolMember).map PoolMember.cbBefore).sum ∧
    -(((([⟨"P", 30⟩, ⟨"Q", -10⟩] : List PoolMember).filter
        fun m => decide (m.cbBefore < 0)).map PoolMember.cbBefore).sum) ≤
      ((([⟨"P", 30⟩, ⟨"Q", -10⟩] : List PoolMember).filter
        fun m => decide (0 < m.cbBefore)).map PoolMember.cbBefore).sum ∧
    ∀ r ∈ allocatePoolBalances [⟨"P", 30⟩, ⟨"Q", -10⟩],
      (0 < r.cbBefore → 0 ≤ r.cbAfter) ∧ (r.cbBefore < 0 → r.cbAfter ≤ 0) :=
  ⟨by norm_num, by norm_num [List.filter_cons, List.filter_nil],
    allocate_sign_invariant _ (by norm_num) (by norm_num [List.filter_cons, List.filter_nil])⟩

/-- C4 (counterexample): `calculateComplianceBalance(91.0, 5000)` does not
equal −340,962,000 — the spec's scenario value is off; the product
`(89.3368 - 91.0) * 5000 * 41000` is −340,956,000. -/
theorem scenario_C_value_ne :
    calculateComplianceBalance 91 5000 ≠ -340962000 := by
  norm_num [calculateComplianceBalance, TARGET_INTENSITY_2025, ENERGY_CONVERSION_FACTOR]

/-- C4 (amended): `calculateComplianceBalance(91.0, 5000)` returns
`(89.3368 - 91.0) * 5000 * 41000` = −340,956,000, a deficit. -/
theorem scenario_C_corrected :
    calculateComplianceBalance 91 5000 = (89.3368 - 91.0) * 5000 * 41000 ∧
    calculateComplianceBalance 91 5000 = -340956000 ∧
    calculateComplianceBalance 91 5000 < 0 := by
  refine ⟨?_, ?_, ?_⟩ <;>
    norm_num [calculateComplianceBalance, TARGET_INTENSITY_2025, ENERGY_CONVERSION_FACTOR]

/-- C5: `validatePool` checks the three rules independently, appending one
error string per violation — the rule 1 error about the total sum when
`sum(cbBefore) < 0`, one error per deficit member with
`cbAfter < cbBefore`, one error per surplus member with `cbAfter < 0`,
in that order — and `valid = true` iff the error list is empty. -/
theorem validatePool_error_structure (ms : List AllocatedMember) :
    (validatePool ms).errors =
      (if (ms.map AllocatedMember.cbBefore).sum < 0
        then ["Total pool sum must be >= 0"] else [])
      ++ (ms.filter fun m => decide (m.cbBefore < 0 ∧ m.cbAfter < m.cbBefore)).map rule2Msg
      ++ (ms.filter fun m => decide (m.cbBefore > 0 ∧ m.cbAfter < 0)).map rule3Msg ∧
    ((validatePool ms).valid = true ↔ (validatePool ms).errors = []) :=
  ⟨validatePool_errors ms, validatePool_valid_iff ms⟩

/-- C6: `allocatePoolBalances` terminates on every input — the two-cursor
loop ends when the cursors meet or cross (it returns its state unchanged
once `surplusIdx < deficitIdx` fails, and fuel `deficitIdx - surplusIdx`
is always enough, extra fuel changing nothing) — and the output annotates
every input member with a `cbAfter` value (same length as the input). -/
theorem allocatePoolBalances_terminates :
    (∀ ms : List PoolMember, (allocatePoolBalances ms).length = ms.length) ∧
    (∀ fuel res si di, ¬ si < di → allocLoop fuel res si di = res) ∧
    (∀ extra fuel res si di, di - si ≤ fuel →
      allocLoop (fuel + extra) res si di = allocLoop fuel res si di) := by
  refine ⟨fun ms => ?_, allocLoop_exit, allocLoop_fuel_add⟩
  simp only [allocatePoolBalances]
  rw [allocLoop_length, List.length_map, (sortByCbDesc_perm ms).length_eq]

theorem allocatePoolBalances_terminates_witness :
    (allocatePoolBalances [⟨"X", 2⟩]).length = 1 ∧
    allocLoop 5 [] 3 1 = [] ∧
    allocLoop (2 + 7) [] 1 2 = allocLoop 2 [] 1 2 :=
  ⟨allocatePoolBalances_terminates.1 _,
    allocatePoolBalances_terminates.2.1 5 [] 3 1 (by omega),
    allocatePoolBalances_terminates.2.2 7 2 [] 1 2 (by omega)⟩

/-- C7: Scenario A — on members `[{A, +100}, {B, -40}, {C, -30}]` the
allocator yields `cbAfter` values A = 30, B = 0, C = 0 (output sorted
descending by `cbBefore`), and `validatePool` on that result returns
`valid = true`. -/
theorem scenario_A_correct :
    allocatePoolBalances [⟨"A", 100⟩, ⟨"B", -40⟩, ⟨"C", -30⟩] =
      [⟨"A", 100, 30⟩, ⟨"C", -30, 0⟩, ⟨"B", -40, 0⟩] ∧
    (validatePool (allocatePoolBalances [⟨"A", 100⟩, ⟨"B", -40⟩, ⟨"C", -30⟩])).valid = true := by
  have h : allocatePoolBalances [⟨"A", 100⟩, ⟨"B", -40⟩, ⟨"C", -30⟩] =
      [⟨"A", 100, 30⟩, ⟨"C", -30, 0⟩, ⟨"B", -40, 0⟩] := by
    norm_num [allocatePoolBalances, sortByCbDesc, insertDesc, allocLoop, List.set, List.getD]
  refine ⟨h, ?_⟩
  rw [h]
  norm_num [validatePool]

/-- C8: `isCompliant(x)` returns true if and only if `x ≤ 89.3368`,
inclusive exactly at the boundary value 89.3368. -/
theorem isCompliant_iff_le_target :
    (∀ x : ℚ, isCompliant x = true ↔ x ≤ 89.3368) ∧ isCompliant 89.3368 = true := by
  constructor
  · intro x
    simp [isCompliant, TARGET_INTENSITY_2025]
  · simp [isCompliant, TARGET_INTENSITY_2025]

/-- C9: for every input list with no duplicate `shipId`, the output of
`allocatePoolBalances` carries exactly the same multiset of
`(shipId, cbBefore)` pairs as the input — no member added, dropped or
altered — each annotated with a `cbAfter` value. -/
theorem allocate_preserves_member_multiset (ms : List PoolMember)
    (_h : (ms.map PoolMember.shipId).Nodup) :
    ((allocatePoolBalances ms).map memberKey).Perm (ms.map poolKey) :=
  allocate_map_key ms

theorem allocate_preserves_member_multiset_witness :
    (([⟨"A", 1⟩, ⟨"B", -1⟩] : List PoolMember).map PoolMember.shipId).Nodup ∧
    ((allocatePoolBalances [⟨"A", 1⟩, ⟨"B", -1⟩]).map memberKey).Perm
      (([⟨"A", 1⟩, ⟨"B", -1⟩] : List PoolMember).map poolKey) :=
  ⟨by simp, allocate_preserves_member_multiset _ (by simp)⟩

/-- C10: `validatePool` on the empty member list returns
`{valid: true, errors: []}` — the empty sum is 0, no per-member rule
applies, so an empty pool passes validation. -/
theorem validatePool_empty : validatePool [] = ⟨true, []⟩ := by
  norm_num [validatePool]

end FuelEU
